import Mathlib

/-!
Verification of the variant-matrix collapsing, partitioning, migration and
naming engine of conda-smithy (conda_smithy/configure_feedstock.py), as a
shallow embedding in Lean 4.

Python dictionaries are modelled as association lists with dict update
semantics (assignment to an existing key replaces the value in place,
assignment to a fresh key appends at the end).  Heterogeneous config values
(lists of scalars, the list-of-lists under zip_keys, and the nested mapping
under pin_run_as_build) are modelled by the tagged type CVal.  Scalar variant
values are modelled as strings.  Fallible dictionary indexing and list
indexing (KeyError, IndexError) are modelled with Option.
-/

namespace CondaSmithy

/-- Tagged value type for one entry of a squished variant mapping or of an
emitted config: a list of scalar values, the list of zip groups stored under
zip_keys, or the package-to-pins mapping stored under pin_run_as_build. -/
inductive CVal where
  | vals : List String → CVal
  | groups : List (List String) → CVal
  | pins : List (String × List (String × String)) → CVal
deriving DecidableEq, Repr

/-- A Python dict from variable names to values, in insertion order. -/
abbrev Cfg := List (String × CVal)

/-- Dictionary lookup: d[k], returning none on a missing key (KeyError). -/
def lookupKey [DecidableEq κ] (k : κ) : List (κ × β) → Option β
  | [] => none
  | p :: l => if p.1 = k then some p.2 else lookupKey k l

/-- Dictionary assignment d[k] = v: replace the value in place when the key
is present, append a new entry at the end otherwise. -/
def setKey [DecidableEq κ] (c : List (κ × β)) (k : κ) (v : β) : List (κ × β) :=
  if c.any (fun p => decide (p.1 = k)) then
    c.map (fun p => if p.1 = k then (k, v) else p)
  else c ++ [(k, v)]

/-- Dictionary deletion del d[k] for a dict (its keys are unique, so removing
every entry with the key is the same as removing the one entry). -/
def eraseKey [DecidableEq κ] : List (κ × β) → κ → List (κ × β)
  | [], _ => []
  | p :: l, k => if p.1 = k then eraseKey l k else p :: eraseKey l k

/-- Python dict.update(other): assign every entry of other in order. -/
def dictUpdate (c p : Cfg) : Cfg :=
  p.foldl (fun acc q => setKey acc q.1 q.2) c

/-- Structural mapM over Option, written out so that proofs can unfold it. -/
def mapO (f : α → Option β) : List α → Option (List β)
  | [] => some []
  | x :: xs => Option.bind (f x) fun y => Option.map (fun ys => y :: ys) (mapO f xs)

/-- Structural foldlM over Option, written out so that proofs can unfold it. -/
def foldO (f : σ → α → Option σ) : σ → List α → Option σ
  | s, [] => some s
  | s, x :: xs => Option.bind (f s x) fun s' => foldO f s' xs

/-- Indexing seq[i] on a list, none when out of range (IndexError). -/
def idx? (l : List α) (i : Nat) : Option α := l.get? i

/-- The value of a key when it is a plain list of scalars. -/
def asVals : Option CVal → Option (List String)
  | some (CVal.vals vs) => some vs
  | _ => none

/-! Python comparisons.  Strings compare lexicographically by code point,
lists and tuples compare lexicographically element by element; sorted(...) is
an ascending stable sort driven by these comparisons, so any stable
ascending sort computes the same list. -/

/-- Lexicographic strict comparison of char lists by code point. -/
def charListLtB : List Char → List Char → Bool
  | [], [] => false
  | [], _ :: _ => true
  | _ :: _, [] => false
  | a :: as, b :: bs =>
    if a.toNat < b.toNat then true
    else if b.toNat < a.toNat then false
    else charListLtB as bs

/-- Python string strict comparison a < b. -/
def strLtB (a b : String) : Bool := charListLtB a.toList b.toList

/-- Python string comparison a <= b for a total order: not (b < a). -/
def strLeB (a b : String) : Bool := !(strLtB b a)

/-- Python tuple/list-of-strings strict lexicographic comparison. -/
def strListLtB : List String → List String → Bool
  | [], [] => false
  | [], _ :: _ => true
  | _ :: _, [] => false
  | a :: as, b :: bs =>
    if strLtB a b then true
    else if strLtB b a then false
    else strListLtB as bs

/-- Python tuple/list-of-strings comparison a <= b: not (b < a). -/
def strListLeB (a b : List String) : Bool := !(strListLtB b a)

/-- Stable insertion of an element into a sorted list: it goes in front of
the first element it is le-related to, so equal elements keep their order. -/
def insertB (le : α → α → Bool) (a : α) : List α → List α
  | [] => [a]
  | b :: l => if le a b then a :: b :: l else b :: insertB le a l

/-- Stable ascending sort, the result Python's stable sorted(...) computes
for a total order le. -/
def insertionSortBy (le : α → α → Bool) : List α → List α
  | [] => []
  | x :: xs => insertB le x (insertionSortBy le xs)

/-- argsort(seq) = sorted(range(len(seq)), key=seq.__getitem__): the indices
of seq sorted by value, equal values keeping ascending index order. -/
def argsort (seq : List (List String)) : List Nat :=
  insertionSortBy (fun i j => strListLeB (seq.getD i []) (seq.getD j []))
    (List.range seq.length)

/-- The permutation [val[i] for i in order], none on an out-of-range index. -/
def applyOrder (ord : List Nat) (l : List α) : Option (List α) :=
  mapO (idx? l) ord

/-! ## package_key (configure_feedstock.py lines 76-85) -/

/-- Python str.replace with a single-character pattern replaces each
occurrence of that character. -/
def pyReplaceChar (s : String) (a b : Char) : String :=
  String.mk (s.toList.map (fun c => if c = a then b else c))

/-- Python "".join(parts): concatenation of the parts. -/
def strJoin (parts : List String) : String :=
  String.mk (parts.flatMap (fun p => p.toList))

/-- package_key(config, used_loop_vars, subdir): concatenate k + config[k][0]
for each k in sorted(used_loop_vars) other than target_platform, then replace
every star and every space with an underscore.  Scalar values are modelled as
strings, so str(...) is the identity; a missing key or an empty value list is
a Python KeyError/IndexError, modelled as none.  The subdir argument is
unused by the source function and is omitted. -/
def package_key (config : Cfg) (used_loop_vars : List String) : Option String :=
  Option.map
    (fun parts => pyReplaceChar (pyReplaceChar (strJoin parts) '*' '_') ' ' '_')
    (mapO
      (fun k =>
        Option.bind (asVals (lookupKey k config)) fun vs =>
        Option.map (fun v => k ++ v) vs.head?)
      ((insertionSortBy strLeB used_loop_vars).filter
        (fun k => k != "target_platform")))

/-- The config-name rule in the words of the (amended) spec: over the sorted
top-level variable names without target_platform, concatenate variable name
and resolved first value, normalizing the characters star and space to
underscore in each part. -/
def spec_config_key (config : Cfg) (used_loop_vars : List String) : Option String :=
  Option.map strJoin
    (mapO
      (fun k =>
        Option.bind (asVals (lookupKey k config)) fun vs =>
        Option.map
          (fun v =>
            String.mk ((k ++ v).toList.map
              (fun c => if c = '*' ∨ c = ' ' then '_' else c)))
          vs.head?)
      ((insertionSortBy strLeB used_loop_vars).filter
        (fun k => k != "target_platform")))

/-! ## sort_config (configure_feedstock.py lines 138-174) -/

/-- The surviving part of the zip groups inside one config: each group
restricted to the keys the config has, groups left empty dropped. -/
def zipGroupsSurviving (config : Cfg) (zip_key_groups : List (List String)) :
    List (List String) :=
  (zip_key_groups.map (fun g => g.filter (fun k => (lookupKey k config).isSome))).filter
    (fun g => !g.isEmpty)

/-- One zip group's shared permutation: collect the index-aligned row tuples
of the group's members and argsort them.  Zip-group members hold plain value
lists; a short member list is an IndexError, modelled as none. -/
def buildOrder (config : Cfg) (group : List String) : Option (List Nat) :=
  Option.bind group.head? fun g0 =>
  Option.bind (asVals (lookupKey g0 config)) fun vs0 =>
  Option.map argsort
    (mapO
      (fun i => mapO (fun k => Option.bind (asVals (lookupKey k config)) fun vs => idx? vs i) group)
      (List.range vs0.length))

/-- The sorting_order dict: every member of every surviving group is assigned
its group's permutation, later groups overwriting earlier ones. -/
def buildOrders (config : Cfg) (groups : List (List String)) :
    Option (List (String × List Nat)) :=
  foldO
    (fun so g =>
      Option.map (fun ord => g.foldl (fun so' k => setKey so' k ord) so)
        (buildOrder config g))
    [] groups

/-- Re-emission of pin_run_as_build: packages in ascending name order, the
pin levels of each package in descending order.  Iterating sorted(d.keys())
over a dict is the same as sorting its entries by key. -/
def pinRebuild (ps : List (String × List (String × String))) :
    List (String × List (String × String)) :=
  (insertionSortBy (fun p q => strLeB p.1 q.1) ps).map
    (fun p => (p.1, (insertionSortBy (fun a b => strLeB a.1 b.1) p.2).reverse))

/-- The new value of one config entry under sort_config: list-typed values
are permuted by their group's order or sorted in isolation, the value under
pin_run_as_build is rebuilt (a list-typed value under that key would make
Python fail on value.keys(), modelled as none). -/
def sortedValOf (so : List (String × List Nat)) (k : String) (v : CVal) :
    Option CVal :=
  if k = "pin_run_as_build" then
    match v with
    | CVal.pins ps => some (CVal.pins (pinRebuild ps))
    | _ => none
  else
    match v with
    | CVal.vals vs =>
      (match lookupKey k so with
       | some ord => Option.map CVal.vals (applyOrder ord vs)
       | none => some (CVal.vals (insertionSortBy strLeB vs)))
    | CVal.groups gs =>
      (match lookupKey k so with
       | some ord => Option.map CVal.groups (applyOrder ord gs)
       | none => some (CVal.groups (insertionSortBy strListLeB gs)))
    | CVal.pins ps => some (CVal.pins ps)

/-- sort_config(config, zip_key_groups): derive one permutation per surviving
zip group and apply it to every member of the group; sort every other
list-valued entry in isolation; re-emit pin_run_as_build in canonical order.
Keys keep their positions, only values change. -/
def sort_config (config : Cfg) (zip_key_groups : List (List String)) : Option Cfg :=
  Option.bind (buildOrders config (zipGroupsSurviving config zip_key_groups)) fun so =>
  mapO (fun p => Option.map (fun v => (p.1, v)) (sortedValOf so p.1 p.2)) config

/-! ## break_up_top_level_values (configure_feedstock.py lines 177-261) -/

/-- First read of zip_keys inside break_up_top_level_values: absent means no
groups, a flat list of names is wrapped into a single group.  (A mapping
under zip_keys is not a shape the pipeline produces; Python would fail
indexing it and it is mapped to no groups here.) -/
def readZipGroups (m : Cfg) : List (List String) :=
  match lookupKey "zip_keys" m with
  | some (CVal.groups gs) => gs
  | some (CVal.vals vs) => if vs.isEmpty then [] else [vs]
  | some (CVal.pins _) => []
  | none => []

/-- Second read of zip_keys, after the top-level keys were consumed: when the
key is still present its value is used without the wrapping normalization (a
flat list there would make sort_config iterate characters, not modelled),
otherwise the first read is kept. -/
def zipKeysSecondRead (m : Cfg) (zg0 : List (List String)) :
    Option (List (List String)) :=
  match lookupKey "zip_keys" m with
  | some (CVal.groups gs) => some gs
  | some _ => none
  | none => some zg0

/-- merge_list_of_dicts (configure_feedstock.py lines 124-131): squish a list
of dicts into one dict of concatenated value lists, keys in first-appearance
order. -/
def merge_list_of_dicts (ds : List Cfg) : Option Cfg :=
  foldO
    (fun acc d =>
      foldO
        (fun acc' p =>
          match lookupKey p.1 acc', p.2 with
          | none, _ => some (acc' ++ [(p.1, p.2)])
          | some (CVal.vals old), CVal.vals new =>
              some (setKey acc' p.1 (CVal.vals (old ++ new)))
          | some (CVal.groups old), CVal.groups new =>
              some (setKey acc' p.1 (CVal.groups (old ++ new)))
          | some _, _ => none)
        acc d)
    [] ds

/-- Ordered-dict grouping of rows by their top-level sub-tuple: insertion
order is the order of first appearance of each sub-tuple. -/
def groupByFst (rows : List (List String × Cfg)) : List (List String × List Cfg) :=
  rows.foldl
    (fun acc r =>
      if acc.any (fun p => decide (p.1 = r.1)) then
        acc.map (fun p => if p.1 = r.1 then (p.1, p.2 ++ [r.2]) else p)
      else acc ++ [(r.1, [r.2])])
    []

/-- The loop state of break_up_top_level_values: the keys already accounted
for, the standalone top-level dimensions, the zipped config groups, and the
remaining squished mapping. -/
structure BreakState where
  accounted : List String
  dims : List (List Cfg)
  zipped : List (List Cfg)
  m : Cfg

/-- One iteration of the key loop of break_up_top_level_values.  A key that
was already consumed by a zip group is skipped.  A key inside a zip group
consumes the whole group: the group's index-aligned rows are grouped by
their top-level sub-tuple, rows sharing a sub-tuple are merged into one
pseudo-dimension entry, and the group's keys are deleted from the mapping.
A standalone key becomes one dimension entry per value occurrence.  A
missing key is a Python KeyError, modelled as none. -/
def break_up_step (top_level_keys : List String) (zg0 : List (List String))
    (st : BreakState) (key : String) : Option BreakState :=
  if key ∈ st.accounted then some st
  else
    match zg0.find? (fun g => decide (key ∈ g)) with
    | some group =>
        Option.bind (asVals (lookupKey key st.m)) fun kvs =>
        Option.bind
          (mapO
            (fun i =>
              Option.bind
                (mapO
                  (fun k => Option.bind (asVals (lookupKey k st.m)) fun vs => idx? vs i)
                  (group.filter (fun k => decide (k ∈ top_level_keys))))
                fun tlc =>
              Option.map (fun row => (tlc, row))
                (mapO
                  (fun k =>
                    Option.bind (asVals (lookupKey k st.m)) fun vs =>
                    Option.map (fun v => (k, CVal.vals [v])) (idx? vs i))
                  group))
            (List.range kvs.length))
          fun rows =>
        Option.bind (mapO (fun p => merge_list_of_dicts p.2) (groupByFst rows))
          fun zipped_config =>
        Option.map
          (fun _ =>
            { accounted := st.accounted ++ group
              dims := st.dims
              zipped := st.zipped ++ [zipped_config]
              m := group.foldl eraseKey st.m })
          (mapO (fun k => lookupKey k st.m) group)
    | none =>
        Option.map
          (fun vs =>
            { accounted := st.accounted
              dims := st.dims ++ [vs.map (fun v => [(key, CVal.vals [v])])]
              zipped := st.zipped
              m := eraseKey st.m key })
          (asVals (lookupKey key st.m))

/-- itertools.product over the dimensions, the rightmost varying fastest. -/
def cartProd : List (List α) → List (List α)
  | [] => [[]]
  | d :: ds => d.flatMap (fun x => (cartProd ds).map (fun t => x :: t))

/-- break_up_top_level_values(top_level_keys, squished_variants): consume the
top-level keys into zipped pseudo-dimensions and standalone dimensions, sort
the remaining background mapping and every zipped entry, then emit one
config per element of the cartesian product of all dimensions (plus the
background when non-empty), later dicts overriding earlier ones.  The
top-level key set is iterated in the order of the given list. -/
def break_up_top_level_values (top_level_keys : List String)
    (squished_variants : Cfg) : Option (List Cfg) :=
  Option.bind
    (foldO (break_up_step top_level_keys (readZipGroups squished_variants))
      { accounted := [], dims := [], zipped := [], m := squished_variants }
      top_level_keys)
    fun st =>
  Option.bind (zipKeysSecondRead st.m (readZipGroups squished_variants)) fun zg1 =>
  Option.bind (sort_config st.m zg1) fun bg =>
  Option.map
    (fun zipped =>
      (cartProd (st.dims ++ zipped ++ (if bg.isEmpty then [] else [[bg]]))).map
        (fun perm => perm.foldl dictUpdate []))
    (mapO (fun zc => mapO (fun c => sort_config c zg1) zc) st.zipped)

/-! ## _trim_unused_zip_keys (configure_feedstock.py lines 268-282) -/

/-- Reading zip_keys inside the trim: .get with default, a flat list wrapped
into one group.  (A mapping there would make Python fail indexing groups[0];
modelled as none.) -/
def trimReadGroups (m : Cfg) : Option (List (List String)) :=
  match lookupKey "zip_keys" m with
  | some (CVal.groups gs) => some gs
  | some (CVal.vals vs) => some (if vs.isEmpty then [] else [vs])
  | some (CVal.pins ps) => if ps.isEmpty then some [] else none
  | none => some []

/-- The used_groups value of _trim_unused_zip_keys: each group restricted to
the members that are keys of the mapping, groups with at most one survivor
dropped. -/
def trimUsedGroups (m : Cfg) (groups : List (List String)) : List (List String) :=
  (groups.map (fun g => g.filter (fun k => (lookupKey k m).isSome))).filter
    (fun g => decide (1 < g.length))

/-- _trim_unused_zip_keys(all_used_vars): keep of each zip group only the
members that are keys of the mapping, keep only groups with more than one
such member, store them back under zip_keys, or delete zip_keys entirely
when no group survives. -/
def trim_unused_zip_keys (m : Cfg) : Option Cfg :=
  Option.map
    (fun groups =>
      if (trimUsedGroups m groups).isEmpty then eraseKey m "zip_keys"
      else setKey m "zip_keys" (CVal.groups (trimUsedGroups m groups)))
    (trimReadGroups m)

/-! ## finalize_config (configure_feedstock.py lines 447-465) -/

/-- The part of the forge configuration finalize_config reads: the
build_platform mapping and the docker fallback image. -/
structure ForgeConfig where
  build_platform : List (String × String)
  docker_fallback_image : String

/-- Python str.startswith(pre): the string's first characters are pre. -/
def strStartsWith (s pre : String) : Bool :=
  decide (s.toList.take pre.toList.length = pre.toList)

/-- The singleton list [value[0]] holding a list value's first element;
IndexError on an empty list, AttributeError-like failure on the
pin_run_as_build mapping, both modelled as none. -/
def firstSingleton : CVal → Option CVal
  | CVal.vals vs => Option.map (fun v => CVal.vals [v]) vs.head?
  | CVal.groups gs => Option.map (fun g => CVal.groups [g]) gs.head?
  | CVal.pins _ => none

/-- Truncation of one zip-group member: config[key] = [config[key][0]] for
every key other than docker_image; a missing key is a KeyError. -/
def truncMember (cfg : Cfg) (k : String) : Option Cfg :=
  if k = "docker_image" then some cfg
  else
    Option.bind (lookupKey k cfg) fun v =>
    Option.map (fun v' => setKey cfg k v') (firstSingleton v)

/-- Truncation of one zip group: only groups containing docker_image have
their members truncated. -/
def truncGroup (cfg : Cfg) (g : List String) : Option Cfg :=
  if "docker_image" ∈ g then foldO truncMember cfg g else some cfg

/-- finalize_config(config, platform, arch, forge_config): on a linux build
platform, truncate docker_image to its first element (or insert the fallback
image as a singleton when absent), then truncate every co-member of each zip
group that contains docker_image; other platforms pass the config through
unchanged. -/
def finalize_config (config : Cfg) (platform arch : String)
    (forge_config : ForgeConfig) : Option Cfg :=
  Option.bind (lookupKey (platform ++ "_" ++ arch) forge_config.build_platform)
    fun build_platform =>
  if strStartsWith build_platform "linux" then
    Option.bind
      (match lookupKey "docker_image" config with
       | some v => Option.map (setKey config "docker_image") (firstSingleton v)
       | none =>
           some (setKey config "docker_image"
             (CVal.vals [forge_config.docker_fallback_image])))
      fun config1 =>
    match lookupKey "zip_keys" config1 with
    | some (CVal.groups gs) => foldO truncGroup config1 gs
    | some _ => none
    | none => some config1
  else some config

/-! ## get_migrations_in_dir and set_migration_fns
    (configure_feedstock.py lines 2388-2474) -/

/-- The key of the migrations mapping: the migrator_ts value when the yaml
document has one (yaml.BaseLoader loads every scalar as a string), or a
fresh sentinel object per file without one — object() identities never
collide, modelled by the file's position in the directory listing. -/
inductive MigKey where
  | ts : String → MigKey
  | obj : Nat → MigKey
deriving DecidableEq, Repr

/-- The fields of one parsed migration yaml document that the migration
machinery reads: the optional migrator_ts scalar, and the optional
migration_number and use_local entries of the __migrator mapping (none
models an absent key, for migration_number Python then uses the int 1,
which compares unequal to every string). -/
structure MigrationYaml where
  migrator_ts : Option String
  migration_number : Option String
  use_local : Option String
deriving DecidableEq, Repr

/-- ASCII lowering, the effect of str.lower() on the ascii flag values the
use_local field holds. -/
def lowerAscii (s : String) : String :=
  String.mk (s.toList.map
    (fun c => if 65 ≤ c.toNat ∧ c.toNat ≤ 90 then Char.ofNat (c.toNat + 32) else c))

/-- The boolean use_local flag: .get("use_local", "false").lower() == "true". -/
def useLocalFlag (y : MigrationYaml) : Bool :=
  lowerAscii (y.use_local.getD "false") = "true"

/-- get_migrations_in_dir(migrations_root): a dict from timestamp (or
per-file sentinel) to (filename, migration_number, use_local), built over
the directory's files in listing order, so a later file with the same
timestamp overwrites an earlier one. -/
def getMigrationsAux (i : Nat) (res : List (MigKey × (String × Option String × Bool))) :
    List (String × MigrationYaml) → List (MigKey × (String × Option String × Bool))
  | [] => res
  | (fn, y) :: rest =>
      let key := match y.migrator_ts with
        | some t => MigKey.ts t
        | none => MigKey.obj i
      getMigrationsAux (i + 1) (setKey res key (fn, y.migration_number, useLocalFlag y)) rest

/-- The migrations mapping of a directory given as a list of
(filename, parsed yaml) pairs in listing order. -/
def get_migrations_in_dir (files : List (String × MigrationYaml)) :
    List (MigKey × (String × Option String × Bool)) :=
  getMigrationsAux 0 [] files

/-- The fate of one feedstock migration entry inside set_migration_fns:
some filename when a file is appended to the migration list (the feedstock
file itself under use_local or a missing timestamp or a migration-number
mismatch, the shared file on a full match), none when the feedstock file is
expired and removed. -/
def migrationChoice (cfp : List (MigKey × (String × Option String × Bool)))
    (k : MigKey) (d : String × Option String × Bool) : Option String :=
  if d.2.2 || (match k with | MigKey.obj _ => true | MigKey.ts _ => false) then
    some d.1
  else
    match lookupKey k cfp with
    | some nd => some (if d.2.1 = nd.2.1 then nd.1 else d.1)
    | none => none

/-- One iteration of the entry loop of set_migration_fns, threading the
(result, deleted files) pair. -/
def migrationStep (cfp : List (MigKey × (String × Option String × Bool)))
    (acc : List String × List String)
    (e : MigKey × (String × Option String × Bool)) : List String × List String :=
  match migrationChoice cfp e.1 e.2 with
  | some f => (acc.1 ++ [f], acc.2)
  | none => (acc.1, acc.2 ++ [e.2.1])

/-- set_migration_fns(forge_dir, forge_config), returning the migration file
list and the list of feedstock files deleted as a side effect.  The first
argument is the feedstock's migrations directory, the second the
conda-forge-pinning migrations directory or none when that directory does
not exist (then every feedstock file is used as-is). -/
def set_migration_fns (feedstock : List (String × MigrationYaml))
    (cfp : Option (List (String × MigrationYaml))) : List String × List String :=
  let mf := get_migrations_in_dir feedstock
  match cfp with
  | none => (mf.map (fun e => e.2.1), [])
  | some cfpFiles => mf.foldl (migrationStep (get_migrations_in_dir cfpFiles)) ([], [])

/-! ## migrate_combined_spec (configure_feedstock.py lines 587-622) -/

/-- One parsed migration document: its migrator_ts timestamp (modelled as an
integer) and the patch that remains after the migrator_ts key is deleted. -/
structure ParsedMigration where
  migrator_ts : Int
  patch : List (String × CVal)

/-- The sort key comparison of migrate_combined_spec: ascending
(migrator_ts, filename), the filename breaking timestamp ties. -/
def migKeyLe (a b : String × ParsedMigration) : Bool :=
  decide (a.2.migrator_ts < b.2.migrator_ts) ||
    (decide (a.2.migrator_ts = b.2.migrator_ts) && strLeB a.1 b.1)

/-- The order in which migrate_combined_spec applies the migrations: the
(filename, parsed migration) pairs stably sorted by (timestamp, filename). -/
def migrationApplicationOrder (migrations : List (String × ParsedMigration)) :
    List (String × ParsedMigration) :=
  insertionSortBy migKeyLe migrations

/-- migrate_combined_spec(combined_spec, ...): sort the parsed migrations by
(migrator_ts, filename) and fold variant_add over the non-empty patches in
that order.  The variant algebra variant_add lives in variant_algebra.py,
outside the given sources, so the fold is parameterized by it. -/
def migrate_combined_spec {σ : Type} (variant_add : σ → List (String × CVal) → σ)
    (combined_spec : σ) (migrations : List (String × ParsedMigration)) : σ :=
  (migrationApplicationOrder migrations).foldl
    (fun spec m => if m.2.patch.isEmpty then spec else variant_add spec m.2.patch)
    combined_spec

/-- Modelled from the spec: the variant algebra variant_add of
conda_smithy/variant_algebra.py is not under the given sources; per the
spec, list-valued keys union preserving order and scalar or pin keys
override. -/
def variant_add_spec (spec patch : List (String × CVal)) : List (String × CVal) :=
  patch.foldl
    (fun acc p =>
      match lookupKey p.1 acc, p.2 with
      | some (CVal.vals old), CVal.vals new =>
          setKey acc p.1 (CVal.vals (old ++ new.filter (fun v => decide (v ∉ old))))
      | _, _ => setKey acc p.1 p.2)
    spec

/-! ## SHA-256 and config-name shortening
    (configure_feedstock.py lines 496-511) -/

/-- UTF-8 encoding of one character, as config_name.encode("utf-8") does. -/
def utf8Bytes (c : Char) : List Nat :=
  let n := c.toNat
  if n < 128 then [n]
  else if n < 2048 then [192 + n / 64, 128 + n % 64]
  else if n < 65536 then [224 + n / 4096, 128 + n / 64 % 64, 128 + n % 64]
  else [240 + n / 262144, 128 + n / 4096 % 64, 128 + n / 64 % 64, 128 + n % 64]

/-- The UTF-8 byte sequence of a string, each byte a Nat below 256. -/
def strBytes (s : String) : List Nat := s.toList.flatMap utf8Bytes

/-- Right rotation of a 32-bit word represented as a Nat below 2 ^ 32. -/
def rotr32 (n x : Nat) : Nat :=
  (x / 2 ^ n + x % 2 ^ n * 2 ^ (32 - n)) % 4294967296

/-- Bitwise complement of a 32-bit word x below 2 ^ 32. -/
def bnot32 (x : Nat) : Nat := 4294967295 - x

/-- Big-endian byte decomposition of x into n bytes. -/
def beBytes (n x : Nat) : List Nat :=
  (List.range n).map (fun i => x / 2 ^ (8 * (n - 1 - i)) % 256)

/-- SHA-256 message padding: the 0x80 byte, zeros up to 56 mod 64, and the
message bit length as 8 big-endian bytes. -/
def sha256Pad (msg : List Nat) : List Nat :=
  msg ++ [128] ++ List.replicate ((120 - (msg.length + 1) % 64) % 64) 0 ++
    beBytes 8 (8 * msg.length)

/-- Big-endian packing of bytes into 32-bit words. -/
def toWords16 : List Nat → List Nat
  | b0 :: b1 :: b2 :: b3 :: rest =>
      (((b0 * 256 + b1) * 256 + b2) * 256 + b3) :: toWords16 rest
  | _ => []

/-- The small sigma-0 function of the SHA-256 message schedule. -/
def ssig0 (x : Nat) : Nat := (rotr32 7 x) ^^^ (rotr32 18 x) ^^^ (x / 2 ^ 3)

/-- The small sigma-1 function of the SHA-256 message schedule. -/
def ssig1 (x : Nat) : Nat := (rotr32 17 x) ^^^ (rotr32 19 x) ^^^ (x / 2 ^ 10)

/-- Message-schedule extension: append the next scheduled word n times. -/
def extendW : Nat → List Nat → List Nat
  | 0, w => w
  | n + 1, w =>
      let l := w.length
      extendW n (w ++ [(ssig1 (w.getD (l - 2) 0) + w.getD (l - 7) 0 +
        ssig0 (w.getD (l - 15) 0) + w.getD (l - 16) 0) % 4294967296])

/-- The 64 SHA-256 round constants. -/
def sha256K : List Nat :=
  [1116352408, 1899447441, 3049323471, 3921009573, 961987163, 1508970993,
   2453635748, 2870763221, 3624381080, 310598401, 607225278, 1426881987,
   1925078388, 2162078206, 2614888103, 3248222580, 3835390401, 4022224774,
   264347078, 604807628, 770255983, 1249150122, 1555081692, 1996064986,
   2554220882, 2821834349, 2952996808, 3210313671, 3336571891, 3584528711,
   113926993, 338241895, 666307205, 773529912, 1294757372, 1396182291,
   1695183700, 1986661051, 2177026350, 2456956037, 2730485921, 2820302411,
   3259730800, 3345764771, 3516065817, 3600352804, 4094571909, 275423344,
   430227734, 506948616, 659060556, 883997877, 958139571, 1322822218,
   1537002063, 1747873779, 1955562222, 2024104815, 2227730452, 2361852424,
   2428436474, 2756734187, 3204031479, 3329325298]

/-- The SHA-256 initial hash value. -/
def sha256H0 : List Nat :=
  [1779033703, 3144134277, 1013904242, 2773480762, 1359893119, 2600822924,
   528734635, 1541459225]

/-- One SHA-256 compression round on the eight-word working state. -/
def sha256Round (st : Nat × Nat × Nat × Nat × Nat × Nat × Nat × Nat)
    (kw : Nat × Nat) : Nat × Nat × Nat × Nat × Nat × Nat × Nat × Nat :=
  match st with
  | (a, b, c, d, e, f, g, h) =>
    let s1 := (rotr32 6 e) ^^^ (rotr32 11 e) ^^^ (rotr32 25 e)
    let ch := (e &&& f) ^^^ (bnot32 e &&& g)
    let t1 := (h + s1 + ch + kw.1 + kw.2) % 4294967296
    let s0 := (rotr32 2 a) ^^^ (rotr32 13 a) ^^^ (rotr32 22 a)
    let mj := (a &&& b) ^^^ (a &&& c) ^^^ (b &&& c)
    let t2 := (s0 + mj) % 4294967296
    ((t1 + t2) % 4294967296, a, b, c, (d + t1) % 4294967296, e, f, g)

/-- SHA-256 compression of one 64-byte block into the running hash words. -/
def processBlock (h8 : List Nat) (block : List Nat) : List Nat :=
  let w := extendW 48 (toWords16 block)
  let st0 := (h8.getD 0 0, h8.getD 1 0, h8.getD 2 0, h8.getD 3 0,
              h8.getD 4 0, h8.getD 5 0, h8.getD 6 0, h8.getD 7 0)
  let st := (sha256K.zip w).foldl sha256Round st0
  [(h8.getD 0 0 + st.1) % 4294967296, (h8.getD 1 0 + st.2.1) % 4294967296,
   (h8.getD 2 0 + st.2.2.1) % 4294967296, (h8.getD 3 0 + st.2.2.2.1) % 4294967296,
   (h8.getD 4 0 + st.2.2.2.2.1) % 4294967296, (h8.getD 5 0 + st.2.2.2.2.2.1) % 4294967296,
   (h8.getD 6 0 + st.2.2.2.2.2.2.1) % 4294967296, (h8.getD 7 0 + st.2.2.2.2.2.2.2) % 4294967296]

/-- Folding the compression over n 64-byte blocks. -/
def sha256Blocks : Nat → List Nat → List Nat → List Nat
  | 0, _, h8 => h8
  | n + 1, bytes, h8 => sha256Blocks n (bytes.drop 64) (processBlock h8 (bytes.take 64))

/-- The eight hash words of hashlib.sha256 on a string's UTF-8 bytes. -/
def sha256Words (s : String) : List Nat :=
  let padded := sha256Pad (strBytes s)
  sha256Blocks (padded.length / 64) padded sha256H0

/-- A lowercase hex digit. -/
def hexNibble (n : Nat) : Char :=
  if n < 10 then Char.ofNat (48 + n) else Char.ofNat (87 + n)

/-- The eight lowercase hex digits of one 32-bit word. -/
def hexWord (x : Nat) : List Char :=
  (List.range 8).map (fun i => hexNibble (x / 16 ^ (7 - i) % 16))

/-- The 64 characters of hashlib.sha256(...).hexdigest(). -/
def sha256HexChars (s : String) : List Char :=
  (sha256Words s).flatMap hexWord

/-- hashlib.sha256(config_name.encode("utf-8")).hexdigest()[:10]. -/
def sha256Hex10 (s : String) : String :=
  String.mk ((sha256HexChars s).take 10)

/-- The short_config_name of dump_subspace_config_files: a name of length at
least 49 is replaced by its first 35 characters, the marker _h and the first
ten hex digits of its sha256. -/
def short_config_name_of (config_name : String) : String :=
  if 49 ≤ config_name.length then
    config_name.take 35 ++ "_h" ++ sha256Hex10 config_name
  else config_name

/-- The config name dump_subspace_config_files finally emits: when the name
prefixed by conda-forge-build-done- reaches 250 characters, the
deterministic short form is substituted. -/
def emitted_config_name (config_name : String) : String :=
  if 250 ≤ ("conda-forge-build-done-" ++ config_name).length then
    short_config_name_of config_name
  else config_name

/-! ## Dictionary lemmas -/

theorem lookupKey_eq_none_of_any_false [DecidableEq κ] {c : List (κ × β)} {k : κ}
    (h : c.any (fun p => decide (p.1 = k)) = false) : lookupKey k c = none := by
  induction c with
  | nil => rfl
  | cons p l ih =>
    simp only [List.any_cons, Bool.or_eq_false_iff, decide_eq_false_iff_not] at h
    simp [lookupKey, h.1, ih h.2]

theorem any_keys_false_iff [DecidableEq κ] {c : List (κ × β)} {k : κ} :
    c.any (fun p => decide (p.1 = k)) = false ↔ lookupKey k c = none := by
  constructor
  · exact lookupKey_eq_none_of_any_false
  · intro h
    induction c with
    | nil => rfl
    | cons p l ih =>
      by_cases hp : p.1 = k
      · simp [lookupKey, hp] at h
      · simp [lookupKey, hp] at h
        simp [List.any_cons, hp, ih h]

theorem lookupKey_append_some [DecidableEq κ] {c : List (κ × β)} {k : κ} {v : β}
    (d : List (κ × β)) (h : lookupKey k c = some v) :
    lookupKey k (c ++ d) = some v := by
  induction c with
  | nil => simp [lookupKey] at h
  | cons p l ih =>
    by_cases hp : p.1 = k
    · simp [lookupKey, hp] at h ⊢; exact h
    · simp [lookupKey, hp] at h ⊢; exact ih h

theorem lookupKey_append_none [DecidableEq κ] {c : List (κ × β)} {k : κ}
    (d : List (κ × β)) (h : lookupKey k c = none) :
    lookupKey k (c ++ d) = lookupKey k d := by
  induction c with
  | nil => simp
  | cons p l ih =>
    by_cases hp : p.1 = k
    · simp [lookupKey, hp] at h
    · simp [lookupKey, hp] at h ⊢; exact ih h

theorem lookupKey_map_overwrite_self [DecidableEq κ] {c : List (κ × β)} {k : κ} {v : β}
    (h : c.any (fun p => decide (p.1 = k)) = true) :
    lookupKey k (c.map (fun p => if p.1 = k then (k, v) else p)) = some v := by
  induction c with
  | nil => simp at h
  | cons p l ih =>
    by_cases hp : p.1 = k
    · simp [lookupKey, hp]
    · simp only [List.any_cons, Bool.or_eq_true, decide_eq_true_eq] at h
      rcases h with h | h
      · exact absurd h hp
      · simp [lookupKey, hp, ih h]

theorem lookupKey_map_overwrite_ne [DecidableEq κ] (c : List (κ × β)) {k k' : κ} (v : β)
    (h : k' ≠ k) :
    lookupKey k' (c.map (fun p => if p.1 = k then (k, v) else p)) = lookupKey k' c := by
  induction c with
  | nil => rfl
  | cons p l ih =>
    by_cases hp : p.1 = k
    · have hkk' : ¬ k = k' := fun he => h he.symm
      have hpk' : ¬ p.1 = k' := by rw [hp]; exact hkk'
      simp [lookupKey, hp, hkk', hpk', ih]
    · by_cases hp' : p.1 = k'
      · have hkk' : ¬ k' = k := h
        simp [lookupKey, hp, hp', hkk']
      · simp [lookupKey, hp, hp', ih]

theorem lookupKey_setKey_self [DecidableEq κ] (c : List (κ × β)) (k : κ) (v : β) :
    lookupKey k (setKey c k v) = some v := by
  unfold setKey
  by_cases h : c.any (fun p => decide (p.1 = k)) = true
  · simp only [h, if_true]
    exact lookupKey_map_overwrite_self h
  · rw [Bool.not_eq_true] at h
    simp only [h, Bool.false_eq_true, if_false]
    rw [lookupKey_append_none _ (lookupKey_eq_none_of_any_false h)]
    simp [lookupKey]

theorem lookupKey_setKey_ne [DecidableEq κ] (c : List (κ × β)) {k k' : κ} (v : β)
    (h : k' ≠ k) : lookupKey k' (setKey c k v) = lookupKey k' c := by
  unfold setKey
  by_cases ha : c.any (fun p => decide (p.1 = k)) = true
  · simp only [ha, if_true]
    exact lookupKey_map_overwrite_ne c v h
  · rw [Bool.not_eq_true] at ha
    simp only [ha, Bool.false_eq_true, if_false]
    cases hc : lookupKey k' c with
    | some w => exact lookupKey_append_some _ hc
    | none =>
      rw [lookupKey_append_none _ hc]
      have hkk' : ¬ k = k' := fun he => h he.symm
      simp [lookupKey, hkk']

theorem lookupKey_eraseKey_self [DecidableEq κ] (c : List (κ × β)) (k : κ) :
    lookupKey k (eraseKey c k) = none := by
  induction c with
  | nil => rfl
  | cons p l ih =>
    by_cases hp : p.1 = k
    · simpa [eraseKey, hp] using ih
    · simpa [eraseKey, hp, lookupKey] using ih

theorem lookupKey_eraseKey_ne [DecidableEq κ] (c : List (κ × β)) {k k' : κ}
    (h : k' ≠ k) : lookupKey k' (eraseKey c k) = lookupKey k' c := by
  induction c with
  | nil => rfl
  | cons p l ih =>
    have hkk' : ¬ k = k' := fun he => h he.symm
    by_cases hp : p.1 = k
    · have hpk' : ¬ p.1 = k' := by rw [hp]; exact hkk'
      simpa [eraseKey, hp, lookupKey, hpk', hkk'] using ih
    · by_cases hp' : p.1 = k'
      · simp [eraseKey, hp, lookupKey, hp', h]
      · simpa [eraseKey, hp, lookupKey, hp'] using ih

theorem lookupKey_eq_none_iff [DecidableEq κ] {c : List (κ × β)} {k : κ} :
    lookupKey k c = none ↔ k ∉ c.map Prod.fst := by
  induction c with
  | nil => simp [lookupKey]
  | cons p l ih =>
    by_cases hp : p.1 = k
    · simp [lookupKey, hp]
    · have hkp : ¬ k = p.1 := fun he => hp he.symm
      simp [lookupKey, hp, ih, hkp]

theorem lookupKey_dictUpdate_none {c p : Cfg} {k : String}
    (h : lookupKey k p = none) : lookupKey k (dictUpdate c p) = lookupKey k c := by
  induction p generalizing c with
  | nil => rfl
  | cons q l ih =>
    by_cases hq : q.1 = k
    · simp [lookupKey, hq] at h
    · simp only [lookupKey, hq, if_false] at h
      show lookupKey k (dictUpdate (setKey c q.1 q.2) l) = lookupKey k c
      rw [ih h, lookupKey_setKey_ne _ _ (fun he => hq he.symm)]

theorem dictUpdate_fresh {p : Cfg} (acc : Cfg)
    (hfresh : ∀ k ∈ p.map Prod.fst, lookupKey k acc = none)
    (hnd : (p.map Prod.fst).Nodup) : dictUpdate acc p = acc ++ p := by
  induction p generalizing acc with
  | nil => simp [dictUpdate]
  | cons q l ih =>
    have hq : lookupKey q.1 acc = none := hfresh q.1 (by simp)
    have hset : setKey acc q.1 q.2 = acc ++ [q] := by
      unfold setKey
      have : acc.any (fun p => decide (p.1 = q.1)) = false := any_keys_false_iff.mpr hq
      simp [this]
    have hnd' : (l.map Prod.fst).Nodup := (List.nodup_cons.mp (by simpa using hnd)).2
    have hql : q.1 ∉ l.map Prod.fst := (List.nodup_cons.mp (by simpa using hnd)).1
    show dictUpdate (setKey acc q.1 q.2) l = acc ++ q :: l
    rw [hset, ih (acc ++ [q]) ?_ hnd']
    · simp
    · intro k hk
      rw [lookupKey_append_none _ (hfresh k (by simp [hk]))]
      have : q.1 ≠ k := fun he => hql (he ▸ hk)
      simp [lookupKey, this]

theorem dictUpdate_nil_of_nodup {p : Cfg} (hnd : (p.map Prod.fst).Nodup) :
    dictUpdate [] p = p := by
  rw [dictUpdate_fresh [] (fun k _ => rfl) hnd]; rfl

/-! ## mapO and cartesian-product lemmas -/

theorem mapO_map (f : α → Option β) (g : β → γ) (l : List α) :
    mapO (fun a => Option.map g (f a)) l = Option.map (List.map g) (mapO f l) := by
  induction l with
  | nil => rfl
  | cons x xs ih =>
    cases hx : f x with
    | none => simp [mapO, hx]
    | some y =>
      cases hxs : mapO f xs with
      | none => simp [mapO, hx, hxs, ih]
      | some ys => simp [mapO, hx, hxs, ih]

theorem mapO_fst {f : String × CVal → Option (String × CVal)}
    (hf : ∀ p q, f p = some q → q.1 = p.1) :
    ∀ {l l'}, mapO f l = some l' → l'.map Prod.fst = l.map Prod.fst := by
  intro l
  induction l with
  | nil => intro l' h; simp [mapO] at h; simp [← h]
  | cons x xs ih =>
    intro l' h
    simp only [mapO, Option.bind_eq_some, Option.map_eq_some'] at h
    obtain ⟨y, hy, ys, hys, hl'⟩ := h
    subst hl'
    simp [hf x y hy, ih hys]

theorem flatMap_single (g : α → β) (l : List α) :
    (l.flatMap fun x => [g x]) = l.map g := by
  induction l with
  | nil => rfl
  | cons x xs ih => simp [List.flatMap_cons, ih]

theorem cartProd_one (l : List α) : cartProd [l] = l.map (fun x => [x]) := by
  show (l.flatMap fun x => (cartProd []).map (fun t => x :: t)) = _
  simp only [cartProd]
  exact flatMap_single _ l

theorem cartProd_two_one (l : List α) (b : α) :
    cartProd [l, [b]] = l.map (fun x => [x, b]) := by
  show (l.flatMap fun x => (cartProd [[b]]).map (fun t => x :: t)) = _
  rw [cartProd_one]
  simp only [List.map_cons, List.map_nil]
  exact flatMap_single _ l

theorem sort_config_fst {c c' : Cfg} {z : List (List String)}
    (h : sort_config c z = some c') : c'.map Prod.fst = c.map Prod.fst := by
  unfold sort_config at h
  rw [Option.bind_eq_some] at h
  obtain ⟨so, _, hm⟩ := h
  exact mapO_fst (fun p q hq => by
    rw [Option.map_eq_some'] at hq
    obtain ⟨v, _, hv⟩ := hq
    simp [← hv]) hm

/-! ## Claim C2: config naming -/

theorem replaceChar_comp (c : Char) :
    (if (if c = '*' then '_' else c) = ' ' then '_' else (if c = '*' then '_' else c))
      = (if c = '*' ∨ c = ' ' then '_' else c) := by
  by_cases h1 : c = '*' <;> by_cases h2 : c = ' ' <;> simp [h1, h2]

theorem replace_join (parts : List String) :
    pyReplaceChar (pyReplaceChar (strJoin parts) '*' '_') ' ' '_' =
      strJoin (parts.map (fun p =>
        String.mk (p.toList.map (fun c => if c = '*' ∨ c = ' ' then '_' else c)))) := by
  have hchar : (fun c : Char => if c = ' ' then '_' else c) ∘
      (fun c : Char => if c = '*' then '_' else c)
      = fun c : Char => if c = '*' ∨ c = ' ' then '_' else c := funext replaceChar_comp
  show String.mk (((parts.flatMap fun p => p.toList).map
      (fun c => if c = '*' then '_' else c)).map (fun c => if c = ' ' then '_' else c)) =
    String.mk ((parts.map fun p =>
      String.mk (p.toList.map (fun c => if c = '*' ∨ c = ' ' then '_' else c))).flatMap
        fun p => p.toList)
  rw [List.map_map, hchar, List.map_flatMap, List.flatMap_map]
  rfl

/-- C2 (amended): the derived config name is the concatenation, over the
sorted top-level variable names other than target_platform, of the variable
name and its first value, with the star and space characters (and only
those) normalized to underscore: package_key agrees everywhere with the
per-part normalization rule spec_config_key. -/
theorem package_key_matches_star_space_normalization (config : Cfg)
    (used_loop_vars : List String) :
    package_key config used_loop_vars = spec_config_key config used_loop_vars := by
  unfold package_key spec_config_key
  have hfun : (fun k : String =>
      (Option.bind (asVals (lookupKey k config)) fun vs =>
        Option.map (fun v => String.mk ((k ++ v).toList.map
          (fun c => if c = '*' ∨ c = ' ' then '_' else c))) vs.head?)) =
      (fun k : String =>
        Option.map (fun s => String.mk (s.toList.map
          (fun c => if c = '*' ∨ c = ' ' then '_' else c)))
        (Option.bind (asVals (lookupKey k config)) fun vs =>
          Option.map (fun v => k ++ v) vs.head?)) := by
    funext k
    cases asVals (lookupKey k config) with
    | none => rfl
    | some vs => cases hv : vs.head? <;> simp [hv]
  rw [hfun, mapO_map]
  cases hm : mapO (fun k =>
      Option.bind (asVals (lookupKey k config)) fun vs =>
        Option.map (fun v => k ++ v) vs.head?)
      ((insertionSortBy strLeB used_loop_vars).filter (fun k => k != "target_platform")) with
  | none => rfl
  | some parts => simp [replace_join parts]

/-- C2: the claim states that every non-alphanumeric character of the
assembled config name is normalized to underscore; package_key only
normalizes the star and the space, and here a dot survives in the name. -/
theorem package_key_keeps_other_nonalnum_cex :
    package_key [("python", CVal.vals ["3.9"])] ["python"] = some "python3.9" ∧
    ("python3.9".toList.any fun c => !(c.isAlphanum || c == '_')) = true := by
  constructor
  · rfl
  · decide

/-! ## Claim C6: the zip-keys trim invariant -/

/-- C6: after _trim_unused_zip_keys runs, every group remaining under the
zip_keys key has at least two members and each member is a key of the
mapping; when no group keeps at least two surviving members, the zip_keys
key is removed entirely. -/
theorem trim_unused_zip_keys_invariant (m m' : Cfg)
    (h : trim_unused_zip_keys m = some m') :
    (∀ gs, lookupKey "zip_keys" m' = some (CVal.groups gs) →
      ∀ g ∈ gs, 2 ≤ g.length ∧ ∀ k ∈ g, (lookupKey k m).isSome = true)
    ∧ (∀ gs₀, trimReadGroups m = some gs₀ →
        (∀ g ∈ gs₀, (g.filter (fun k => (lookupKey k m).isSome)).length ≤ 1) →
        lookupKey "zip_keys" m' = none) := by
  unfold trim_unused_zip_keys at h
  rw [Option.map_eq_some'] at h
  obtain ⟨gs₀, hread, hm'⟩ := h
  by_cases hE : (trimUsedGroups m gs₀).isEmpty = true
  · rw [if_pos hE] at hm'
    subst hm'
    constructor
    · intro gs hgs
      rw [lookupKey_eraseKey_self] at hgs
      exact absurd hgs (by simp)
    · intro _ _ _
      exact lookupKey_eraseKey_self m "zip_keys"
  · rw [if_neg hE] at hm'
    subst hm'
    constructor
    · intro gs hgs
      rw [lookupKey_setKey_self] at hgs
      have hgs' : trimUsedGroups m gs₀ = gs := by
        injection hgs with h1
        injection h1
      subst hgs'
      intro g hg
      unfold trimUsedGroups at hg
      rw [List.mem_filter] at hg
      obtain ⟨hgmap, hglen⟩ := hg
      constructor
      · have := of_decide_eq_true hglen
        omega
      · rw [List.mem_map] at hgmap
        obtain ⟨g₀, _, hg₀⟩ := hgmap
        intro k hk
        rw [← hg₀] at hk
        exact (List.mem_filter.mp hk).2
    · intro gs₁ hread₁ hsmall
      rw [hread] at hread₁
      injection hread₁ with he
      subst he
      exfalso
      apply hE
      rw [List.isEmpty_iff]
      rw [List.eq_nil_iff_forall_not_mem]
      intro g hg
      unfold trimUsedGroups at hg
      rw [List.mem_filter] at hg
      obtain ⟨hgmap, hglen⟩ := hg
      rw [List.mem_map] at hgmap
      obtain ⟨g₀, hg₀mem, hg₀⟩ := hgmap
      have := hsmall g₀ hg₀mem
      rw [hg₀] at this
      have h2 := of_decide_eq_true hglen
      omega

/-- Witness for C6 at a concrete mapping: the group with two present members
survives with both members present, and a mapping whose only group keeps one
member loses its zip_keys key. -/
theorem trim_unused_zip_keys_invariant_witness :
    (lookupKey "a"
      [("zip_keys", CVal.groups [["a", "b"], ["c", "d"]]),
       ("a", CVal.vals ["1"]), ("b", CVal.vals ["2"]), ("c", CVal.vals ["3"])]).isSome = true
    ∧ lookupKey "zip_keys" [("c", CVal.vals ["3"])] = (none : Option CVal) := by
  constructor
  · exact ((trim_unused_zip_keys_invariant
      [("zip_keys", CVal.groups [["a", "b"], ["c", "d"]]),
       ("a", CVal.vals ["1"]), ("b", CVal.vals ["2"]), ("c", CVal.vals ["3"])]
      [("zip_keys", CVal.groups [["a", "b"]]),
       ("a", CVal.vals ["1"]), ("b", CVal.vals ["2"]), ("c", CVal.vals ["3"])]
      (by rfl)).1 [["a", "b"]] (by rfl) ["a", "b"] (by simp)).2 "a" (by simp)
  · exact (trim_unused_zip_keys_invariant
      [("zip_keys", CVal.groups [["c", "d"]]), ("c", CVal.vals ["3"])]
      [("c", CVal.vals ["3"])]
      (by rfl)).2 [["c", "d"]] (by rfl) (by decide)

/-! ## Claim C8: deterministic shortening of oversized names -/

theorem processBlock_length (h8 block : List Nat) : (processBlock h8 block).length = 8 :=
  rfl

theorem sha256Blocks_length :
    ∀ (n : Nat) (bytes h8 : List Nat), h8.length = 8 → (sha256Blocks n bytes h8).length = 8 := by
  intro n
  induction n with
  | zero => intro bytes h8 h; exact h
  | succ k ih =>
    intro bytes h8 _
    exact ih (bytes.drop 64) _ (processBlock_length h8 (bytes.take 64))

theorem flatMap_hexWord_length (ws : List Nat) :
    (ws.flatMap hexWord).length = 8 * ws.length := by
  induction ws with
  | nil => rfl
  | cons w ws ih =>
    rw [List.flatMap_cons, List.length_append, ih]
    have : (hexWord w).length = 8 := by simp [hexWord]
    rw [this, List.length_cons]
    ring

theorem sha256HexChars_length (s : String) : (sha256HexChars s).length = 64 := by
  have hw : (sha256Words s).length = 8 := sha256Blocks_length _ _ _ (by rfl)
  unfold sha256HexChars
  rw [flatMap_hexWord_length, hw]

/-- C8: when the assembled config name together with the fixed
conda-forge-build-done- prefix reaches the 250-character ceiling, the
emitted name is the deterministic short form: the first 35 characters of
the full name, the marker _h and the first ten hex digits of the sha256 of
the full name.  Both functions are total, so shortening never raises, and
the short form depends only on the full name. -/
theorem emitted_config_name_shortened (name : String)
    (h : 250 ≤ ("conda-forge-build-done-" ++ name).length) :
    emitted_config_name name = name.take 35 ++ "_h" ++ sha256Hex10 name
    ∧ (sha256Hex10 name).length = 10 := by
  rw [String.length_append] at h
  have h23 : ("conda-forge-build-done-" : String).length = 23 := by decide
  rw [h23] at h
  constructor
  · unfold emitted_config_name
    rw [if_pos (by rw [String.length_append, h23]; omega)]
    unfold short_config_name_of
    rw [if_pos (by omega)]
  · show (String.mk ((sha256HexChars name).take 10)).length = 10
    have : (String.mk ((sha256HexChars name).take 10)).length =
        ((sha256HexChars name).take 10).length := rfl
    rw [this, List.length_take, sha256HexChars_length]
    decide

set_option maxRecDepth 4096

/-- Witness for C8 at a concrete 230-character name, whose prefixed length
253 reaches the ceiling. -/
theorem emitted_config_name_shortened_witness :
    emitted_config_name (String.mk (List.replicate 230 'a')) =
      (String.mk (List.replicate 230 'a')).take 35 ++ "_h" ++
        sha256Hex10 (String.mk (List.replicate 230 'a'))
    ∧ (sha256Hex10 (String.mk (List.replicate 230 'a'))).length = 10 :=
  emitted_config_name_shortened (String.mk (List.replicate 230 'a')) (by decide)

/-! ## Claim C3: migrations apply in ascending (timestamp, filename) order -/

/-- C3: migrate_combined_spec applies the patches in ascending order of the
key (migrator_ts, filename).  Migrations timestamped 3, 1, 2 merge exactly
as sequential application in timestamp order 1, 2, 3, for every variant_add,
every spec and all non-empty patches; and two migrations with equal
timestamps apply in filename order. -/
theorem migrate_combined_spec_applies_in_ascending_order {σ : Type}
    (variant_add : σ → List (String × CVal) → σ) (combined_spec : σ)
    (fa fb fc : String) (ma mb mc : ParsedMigration)
    (hta : ma.migrator_ts = 3) (htb : mb.migrator_ts = 1) (htc : mc.migrator_ts = 2)
    (hpa : ma.patch.isEmpty = false) (hpb : mb.patch.isEmpty = false)
    (hpc : mc.patch.isEmpty = false) :
    migrate_combined_spec variant_add combined_spec [(fa, ma), (fb, mb), (fc, mc)] =
      variant_add (variant_add (variant_add combined_spec mb.patch) mc.patch) ma.patch
    ∧ ∀ (g : σ → List (String × CVal) → σ) (s : σ) (f1 f2 : String)
        (m1 m2 : ParsedMigration),
        m1.migrator_ts = m2.migrator_ts → strLeB f2 f1 = false →
        m1.patch.isEmpty = false → m2.patch.isEmpty = false →
        migrate_combined_spec g s [(f2, m2), (f1, m1)] = g (g s m1.patch) m2.patch := by
  have hpa' : ¬ ma.patch = [] := by simpa using hpa
  have hpb' : ¬ mb.patch = [] := by simpa using hpb
  have hpc' : ¬ mc.patch = [] := by simpa using hpc
  constructor
  · simp [migrate_combined_spec, migrationApplicationOrder, insertionSortBy, insertB,
      migKeyLe, hta, htb, htc, hpa', hpb', hpc']
  · intro g s f1 f2 m1 m2 hts hf hp1 hp2
    have hp1' : ¬ m1.patch = [] := by simpa using hp1
    have hp2' : ¬ m2.patch = [] := by simpa using hp2
    simp [migrate_combined_spec, migrationApplicationOrder, insertionSortBy, insertB,
      migKeyLe, hts, hf, hp1', hp2']

/-- Witness for C3 at concrete migrations timestamped 3, 1, 2 with the
spec-modelled variant algebra. -/
theorem migrate_combined_spec_applies_in_ascending_order_witness :
    migrate_combined_spec variant_add_spec [("python", CVal.vals ["3.9"])]
      [("f3.yaml", { migrator_ts := 3, patch := [("p3", CVal.vals ["c"])] }),
       ("f1.yaml", { migrator_ts := 1, patch := [("python", CVal.vals ["3.10"])] }),
       ("f2.yaml", { migrator_ts := 2, patch := [("p2", CVal.vals ["b"])] })] =
      variant_add_spec (variant_add_spec (variant_add_spec
        [("python", CVal.vals ["3.9"])] [("python", CVal.vals ["3.10"])])
        [("p2", CVal.vals ["b"])]) [("p3", CVal.vals ["c"])] :=
  (migrate_combined_spec_applies_in_ascending_order variant_add_spec
    [("python", CVal.vals ["3.9"])] "f3.yaml" "f1.yaml" "f2.yaml"
    { migrator_ts := 3, patch := [("p3", CVal.vals ["c"])] }
    { migrator_ts := 1, patch := [("python", CVal.vals ["3.10"])] }
    { migrator_ts := 2, patch := [("p2", CVal.vals ["b"])] }
    rfl rfl rfl rfl rfl rfl).1

/-! ## Claims C4, C5, C10: migration selection -/

theorem lookupKey_mem [DecidableEq κ] {c : List (κ × β)} {k : κ} {v : β}
    (h : lookupKey k c = some v) : (k, v) ∈ c := by
  induction c with
  | nil => simp [lookupKey] at h
  | cons p l ih =>
    by_cases hp : p.1 = k
    · simp only [lookupKey, hp, if_true, Option.some.injEq] at h
      have hpv : p = (k, v) := Prod.ext hp h
      rw [← hpv]
      exact List.mem_cons_self p l
    · simp only [lookupKey, hp, if_false] at h
      exact List.mem_cons_of_mem _ (ih h)

theorem migrationFold_kept_mono (cfp : List (MigKey × (String × Option String × Bool))) :
    ∀ (l : List (MigKey × (String × Option String × Bool)))
      (acc : List String × List String) (x : String),
      x ∈ acc.1 → x ∈ (l.foldl (migrationStep cfp) acc).1 := by
  intro l
  induction l with
  | nil => intro acc x hx; exact hx
  | cons e rest ih =>
    intro acc x hx
    rw [List.foldl_cons]
    apply ih
    unfold migrationStep
    cases migrationChoice cfp e.1 e.2 with
    | some f => exact List.mem_append_left _ hx
    | none => exact hx

theorem migrationFold_deleted_mono (cfp : List (MigKey × (String × Option String × Bool))) :
    ∀ (l : List (MigKey × (String × Option String × Bool)))
      (acc : List String × List String) (x : String),
      x ∈ acc.2 → x ∈ (l.foldl (migrationStep cfp) acc).2 := by
  intro l
  induction l with
  | nil => intro acc x hx; exact hx
  | cons e rest ih =>
    intro acc x hx
    rw [List.foldl_cons]
    apply ih
    unfold migrationStep
    cases migrationChoice cfp e.1 e.2 with
    | some f => exact hx
    | none => exact List.mem_append_left _ hx

theorem migrationFold_mem_kept (cfp : List (MigKey × (String × Option String × Bool))) :
    ∀ (l : List (MigKey × (String × Option String × Bool)))
      (acc : List String × List String) (k : MigKey) (d : String × Option String × Bool)
      (f : String), (k, d) ∈ l → migrationChoice cfp k d = some f →
      f ∈ (l.foldl (migrationStep cfp) acc).1 := by
  intro l
  induction l with
  | nil => intro acc k d f h _; simp at h
  | cons e rest ih =>
    intro acc k d f h hch
    rw [List.foldl_cons]
    rcases List.mem_cons.mp h with he | he
    · apply migrationFold_kept_mono
      rw [← he]
      unfold migrationStep
      rw [hch]
      exact List.mem_append_right _ (by simp)
    · exact ih _ k d f he hch

theorem migrationFold_mem_deleted (cfp : List (MigKey × (String × Option String × Bool))) :
    ∀ (l : List (MigKey × (String × Option String × Bool)))
      (acc : List String × List String) (k : MigKey) (d : String × Option String × Bool),
      (k, d) ∈ l → migrationChoice cfp k d = none →
      d.1 ∈ (l.foldl (migrationStep cfp) acc).2 := by
  intro l
  induction l with
  | nil => intro acc k d h _; simp at h
  | cons e rest ih =>
    intro acc k d h hch
    rw [List.foldl_cons]
    rcases List.mem_cons.mp h with he | he
    · apply migrationFold_deleted_mono
      rw [← he]
      unfold migrationStep
      rw [hch]
      exact List.mem_append_right _ (by simp [← he])
    · exact ih _ k d he hch

/-- C4: a feedstock migration whose parseable timestamp also appears in the
conda-forge-pinning migrations takes the shared file's path when the
migration numbers agree, unless it carries use_local (then the feedstock
path is used as-is); when the numbers differ the feedstock path is kept. -/
theorem set_migration_fns_shared_match_uses_cfp
    (fs cf : List (String × MigrationYaml)) (t fn nfn : String)
    (num nnum : Option String) (ul nul : Bool)
    (hf : lookupKey (MigKey.ts t) (get_migrations_in_dir fs) = some (fn, num, ul))
    (hc : lookupKey (MigKey.ts t) (get_migrations_in_dir cf) = some (nfn, nnum, nul)) :
    ((ul = false ∧ num = nnum) → nfn ∈ (set_migration_fns fs (some cf)).1)
    ∧ (ul = true → fn ∈ (set_migration_fns fs (some cf)).1)
    ∧ ((ul = false ∧ num ≠ nnum) → fn ∈ (set_migration_fns fs (some cf)).1) := by
  have hmem := lookupKey_mem hf
  refine ⟨?_, ?_, ?_⟩
  · rintro ⟨hul, hnum⟩
    subst hul
    apply migrationFold_mem_kept _ _ _ _ _ _ hmem
    simp [migrationChoice, hc, hnum]
  · intro hul
    subst hul
    apply migrationFold_mem_kept _ _ _ _ _ _ hmem
    simp [migrationChoice]
  · rintro ⟨hul, hnum⟩
    subst hul
    apply migrationFold_mem_kept _ _ _ _ _ _ hmem
    simp [migrationChoice, hc, hnum]

/-- Witness for C4 at concrete directories: the matching entry takes the
shared path, a use_local entry keeps the feedstock path, and a
number-mismatched entry keeps the feedstock path. -/
theorem set_migration_fns_shared_match_uses_cfp_witness :
    "up.yaml" ∈ (set_migration_fns
      [("m1.yaml", { migrator_ts := some "100", migration_number := some "3",
                     use_local := none })]
      (some [("up.yaml", { migrator_ts := some "100", migration_number := some "3",
                           use_local := none })])).1 :=
  (set_migration_fns_shared_match_uses_cfp
    [("m1.yaml", { migrator_ts := some "100", migration_number := some "3",
                   use_local := none })]
    [("up.yaml", { migrator_ts := some "100", migration_number := some "3",
                   use_local := none })]
    "100" "m1.yaml" "up.yaml" (some "3") (some "3") false false
    (by rfl) (by rfl)).1 ⟨rfl, rfl⟩

/-- C5: the claim as stated is refuted: this feedstock migration has the
parseable timestamp 5, absent from the (existing, empty) shared migrations
directory, yet set_migration_fns keeps it in the migration list and deletes
nothing, because it carries use_local=true. -/
theorem expired_use_local_migration_kept_cex :
    set_migration_fns
      [("local.yaml", { migrator_ts := some "5", migration_number := some "1",
                        use_local := some "true" })]
      (some []) = (["local.yaml"], []) := by rfl

/-- C5 (amended): a feedstock migration with a parseable timestamp absent
from the shared migrations directory and without use_local is deleted and
contributes nothing to the migration list; a feedstock migration without a
parseable timestamp is kept as-is and never deleted. -/
theorem set_migration_fns_expired_deleted_unless_use_local
    (fs cf : List (String × MigrationYaml)) (t fn1 : String) (num1 : Option String)
    (i : Nat) (fn2 : String) (num2 : Option String) (ul2 : Bool)
    (h1 : lookupKey (MigKey.ts t) (get_migrations_in_dir fs) = some (fn1, num1, false))
    (hc : lookupKey (MigKey.ts t) (get_migrations_in_dir cf) = none)
    (h2 : lookupKey (MigKey.obj i) (get_migrations_in_dir fs) = some (fn2, num2, ul2)) :
    fn1 ∈ (set_migration_fns fs (some cf)).2
    ∧ migrationChoice (get_migrations_in_dir cf) (MigKey.ts t) (fn1, num1, false) = none
    ∧ fn2 ∈ (set_migration_fns fs (some cf)).1
    ∧ migrationChoice (get_migrations_in_dir cf) (MigKey.obj i) (fn2, num2, ul2) = some fn2 := by
  have hch1 : migrationChoice (get_migrations_in_dir cf) (MigKey.ts t) (fn1, num1, false)
      = none := by
    simp [migrationChoice, hc]
  have hch2 : migrationChoice (get_migrations_in_dir cf) (MigKey.obj i) (fn2, num2, ul2)
      = some fn2 := by
    simp [migrationChoice]
  refine ⟨?_, hch1, ?_, hch2⟩
  · exact migrationFold_mem_deleted _ _ _ _ _ (lookupKey_mem h1) hch1
  · exact migrationFold_mem_kept _ _ _ _ _ _ (lookupKey_mem h2) hch2

/-- Witness for the amended C5 at concrete directories: old.yaml (timestamp
9, absent from the shared directory, no use_local) is deleted, while
nots.yaml (no parseable timestamp) is kept. -/
theorem set_migration_fns_expired_deleted_unless_use_local_witness :
    "old.yaml" ∈ (set_migration_fns
      [("old.yaml", { migrator_ts := some "9", migration_number := some "1",
                      use_local := none }),
       ("nots.yaml", { migrator_ts := none, migration_number := none,
                       use_local := none })]
      (some [])).2
    ∧ "nots.yaml" ∈ (set_migration_fns
      [("old.yaml", { migrator_ts := some "9", migration_number := some "1",
                      use_local := none }),
       ("nots.yaml", { migrator_ts := none, migration_number := none,
                       use_local := none })]
      (some [])).1 := by
  have h := set_migration_fns_expired_deleted_unless_use_local
    [("old.yaml", { migrator_ts := some "9", migration_number := some "1",
                    use_local := none }),
     ("nots.yaml", { migrator_ts := none, migration_number := none,
                     use_local := none })]
    [] "9" "old.yaml" (some "1") 1 "nots.yaml" none false
    (by rfl) (by rfl) (by rfl)
  exact ⟨h.1, h.2.2.1⟩

/-- C10: get_migrations_in_dir keys its result by the migrator_ts value
alone, so of two files with the same timestamp only the later one is
retained, and the earlier file is neither used nor deleted by the later
selection in set_migration_fns. -/
theorem get_migrations_last_same_ts_wins
    (fn1 fn2 t : String) (y1 y2 : MigrationYaml) (cf : List (String × MigrationYaml))
    (h1 : y1.migrator_ts = some t) (h2 : y2.migrator_ts = some t)
    (hne : fn1 ≠ fn2)
    (hcf : ∀ e ∈ get_migrations_in_dir cf, e.2.1 ≠ fn1) :
    get_migrations_in_dir [(fn1, y1), (fn2, y2)] =
      [(MigKey.ts t, (fn2, y2.migration_number, useLocalFlag y2))]
    ∧ fn1 ∉ (set_migration_fns [(fn1, y1), (fn2, y2)] (some cf)).1
    ∧ fn1 ∉ (set_migration_fns [(fn1, y1), (fn2, y2)] (some cf)).2 := by
  have hmap : get_migrations_in_dir [(fn1, y1), (fn2, y2)] =
      [(MigKey.ts t, (fn2, y2.migration_number, useLocalFlag y2))] := by
    simp [get_migrations_in_dir, getMigrationsAux, h1, h2, setKey]
  refine ⟨hmap, ?_⟩
  show fn1 ∉ (List.foldl (migrationStep (get_migrations_in_dir cf)) ([], [])
      (get_migrations_in_dir [(fn1, y1), (fn2, y2)])).1 ∧
    fn1 ∉ (List.foldl (migrationStep (get_migrations_in_dir cf)) ([], [])
      (get_migrations_in_dir [(fn1, y1), (fn2, y2)])).2
  rw [hmap]
  rw [List.foldl_cons, List.foldl_nil]
  unfold migrationStep migrationChoice
  cases hu : useLocalFlag y2 with
  | true => simp [hne]
  | false =>
    simp only [Bool.false_or]
    cases hl : lookupKey (MigKey.ts t) (get_migrations_in_dir cf) with
    | none => simp [hne]
    | some nd =>
      have hnd : nd.1 ≠ fn1 := hcf (MigKey.ts t, nd) (lookupKey_mem hl)
      have hnd' : ¬ fn1 = nd.1 := fun he => hnd he.symm
      by_cases hn : y2.migration_number = nd.2.1
      · simp [hn, hnd']
      · simp [hn, hne]

/-- Witness for C10 at concrete files a.yaml and c.yaml sharing timestamp 5:
only c.yaml is retained, and a.yaml is neither listed nor deleted. -/
theorem get_migrations_last_same_ts_wins_witness :
    get_migrations_in_dir
      [("a.yaml", { migrator_ts := some "5", migration_number := some "1",
                    use_local := none }),
       ("c.yaml", { migrator_ts := some "5", migration_number := some "2",
                    use_local := none })] =
      [(MigKey.ts "5", ("c.yaml", some "2", false))]
    ∧ "a.yaml" ∉ (set_migration_fns
        [("a.yaml", { migrator_ts := some "5", migration_number := some "1",
                      use_local := none }),
         ("c.yaml", { migrator_ts := some "5", migration_number := some "2",
                      use_local := none })] (some [])).1
    ∧ "a.yaml" ∉ (set_migration_fns
        [("a.yaml", { migrator_ts := some "5", migration_number := some "1",
                      use_local := none }),
         ("c.yaml", { migrator_ts := some "5", migration_number := some "2",
                      use_local := none })] (some [])).2 :=
  get_migrations_last_same_ts_wins "a.yaml" "c.yaml" "5"
    { migrator_ts := some "5", migration_number := some "1", use_local := none }
    { migrator_ts := some "5", migration_number := some "2", use_local := none }
    [] rfl rfl (by decide) (by intro e he; simp [get_migrations_in_dir, getMigrationsAux] at he)

/-! ## Claim C9: finalize_config on linux build platforms -/

theorem firstSingleton_idem {y z : CVal} (h : firstSingleton y = some z) :
    firstSingleton z = some z := by
  cases y with
  | vals vs =>
    cases hh : vs.head? with
    | none => simp [firstSingleton, hh] at h
    | some v => simp [firstSingleton, hh] at h; simp [← h, firstSingleton]
  | groups gs =>
    cases hh : gs.head? with
    | none => simp [firstSingleton, hh] at h
    | some g => simp [firstSingleton, hh] at h; simp [← h, firstSingleton]
  | pins ps => simp [firstSingleton] at h

theorem truncMember_lookup_ne {cfg cfg1 : Cfg} {k0 : String}
    (h : truncMember cfg k0 = some cfg1) (k : String) (hk : k ≠ k0) :
    lookupKey k cfg1 = lookupKey k cfg := by
  unfold truncMember at h
  by_cases h0 : k0 = "docker_image"
  · rw [if_pos h0] at h
    injection h with h
    rw [← h]
  · rw [if_neg h0] at h
    rw [Option.bind_eq_some] at h
    obtain ⟨y, _, hmap⟩ := h
    rw [Option.map_eq_some'] at hmap
    obtain ⟨z, _, hset⟩ := hmap
    rw [← hset]
    exact lookupKey_setKey_ne _ _ hk

theorem truncMember_lookup_self {cfg cfg1 : Cfg} {k0 : String}
    (h : truncMember cfg k0 = some cfg1) (h0 : k0 ≠ "docker_image") :
    ∃ y z, lookupKey k0 cfg = some y ∧ firstSingleton y = some z ∧
      lookupKey k0 cfg1 = some z := by
  unfold truncMember at h
  rw [if_neg h0] at h
  rw [Option.bind_eq_some] at h
  obtain ⟨y, hy, hmap⟩ := h
  rw [Option.map_eq_some'] at hmap
  obtain ⟨z, hz, hset⟩ := hmap
  exact ⟨y, z, hy, hz, by rw [← hset]; exact lookupKey_setKey_self _ _ _⟩

theorem truncMemberFold_lookup :
    ∀ (l : List String) (cfg cfg' : Cfg), foldO truncMember cfg l = some cfg' →
      ∀ k : String,
      ((k = "docker_image" ∨ k ∉ l) → lookupKey k cfg' = lookupKey k cfg)
      ∧ (k ≠ "docker_image" → k ∈ l →
          ∃ y z, lookupKey k cfg = some y ∧ firstSingleton y = some z ∧
            lookupKey k cfg' = some z ∧ firstSingleton z = some z) := by
  intro l
  induction l with
  | nil =>
    intro cfg cfg' h k
    simp only [foldO, Option.some.injEq] at h
    subst h
    exact ⟨fun _ => rfl, fun _ hk => absurd hk (List.not_mem_nil k)⟩
  | cons k0 rest ih =>
    intro cfg cfg' h k
    simp only [foldO] at h
    rw [Option.bind_eq_some] at h
    obtain ⟨cfg1, hstep, hrest⟩ := h
    constructor
    · intro hk
      have h1 : lookupKey k cfg1 = lookupKey k cfg := by
        by_cases hkk0 : k = k0
        · have hd : k = "docker_image" := by
            rcases hk with hk | hk
            · exact hk
            · exact absurd (hkk0 ▸ List.mem_cons_self k0 rest) hk
          have h0 : k0 = "docker_image" := by rw [← hkk0]; exact hd
          unfold truncMember at hstep
          rw [if_pos h0] at hstep
          injection hstep with hstep
          rw [← hstep]
        · exact truncMember_lookup_ne hstep k hkk0
      have h2 := (ih cfg1 cfg' hrest k).1 (by
        rcases hk with hk | hk
        · exact Or.inl hk
        · exact Or.inr (fun hr => hk (List.mem_cons_of_mem _ hr)))
      rw [h2, h1]
    · intro hkd hk
      by_cases hkk0 : k = k0
      · subst hkk0
        obtain ⟨y, z, hy, hz, hlook1⟩ := truncMember_lookup_self hstep hkd
        have hidem := firstSingleton_idem hz
        by_cases hkr : k ∈ rest
        · obtain ⟨y2, z2, hy2, hz2, hfin, _⟩ := (ih cfg1 cfg' hrest k).2 hkd hkr
          rw [hlook1] at hy2
          injection hy2 with hy2
          subst hy2
          rw [hidem] at hz2
          injection hz2 with hz2
          subst hz2
          exact ⟨y, z, hy, hz, hfin, hidem⟩
        · have := (ih cfg1 cfg' hrest k).1 (Or.inr hkr)
          rw [hlook1] at this
          exact ⟨y, z, hy, hz, this, hidem⟩
      · have hkrest : k ∈ rest := by
          rcases List.mem_cons.mp hk with he | he
          · exact absurd he hkk0
          · exact he
        obtain ⟨y, z, hy, hz, hfin, hid⟩ := (ih cfg1 cfg' hrest k).2 hkd hkrest
        rw [truncMember_lookup_ne hstep k hkk0] at hy
        exact ⟨y, z, hy, hz, hfin, hid⟩

theorem truncGroupFold_lookup :
    ∀ (gs : List (List String)) (cfg cfg' : Cfg), foldO truncGroup cfg gs = some cfg' →
      ∀ k : String,
      ((k = "docker_image" ∨ ∀ g ∈ gs, "docker_image" ∈ g → k ∉ g) →
        lookupKey k cfg' = lookupKey k cfg)
      ∧ (k ≠ "docker_image" → (∃ g, g ∈ gs ∧ "docker_image" ∈ g ∧ k ∈ g) →
          ∃ y z, lookupKey k cfg = some y ∧ firstSingleton y = some z ∧
            lookupKey k cfg' = some z ∧ firstSingleton z = some z) := by
  intro gs
  induction gs with
  | nil =>
    intro cfg cfg' h k
    simp only [foldO, Option.some.injEq] at h
    subst h
    refine ⟨fun _ => rfl, fun _ hk => ?_⟩
    obtain ⟨g, hg, _⟩ := hk
    exact absurd hg (List.not_mem_nil g)
  | cons g0 rest ih =>
    intro cfg cfg' h k
    simp only [foldO] at h
    rw [Option.bind_eq_some] at h
    obtain ⟨cfg1, hstep, hrest⟩ := h
    constructor
    · intro hk
      have h1 : lookupKey k cfg1 = lookupKey k cfg := by
        unfold truncGroup at hstep
        by_cases hd0 : "docker_image" ∈ g0
        · rw [if_pos hd0] at hstep
          rcases hk with hk | hk
          · exact (truncMemberFold_lookup g0 cfg cfg1 hstep k).1 (Or.inl hk)
          · exact (truncMemberFold_lookup g0 cfg cfg1 hstep k).1
              (Or.inr (hk g0 (List.mem_cons_self g0 rest) hd0))
        · rw [if_neg hd0] at hstep
          injection hstep with hstep
          rw [← hstep]
      have h2 := (ih cfg1 cfg' hrest k).1 (by
        rcases hk with hk | hk
        · exact Or.inl hk
        · exact Or.inr (fun g hg hd => hk g (List.mem_cons_of_mem _ hg) hd))
      rw [h2, h1]
    · intro hkd hk
      obtain ⟨g, hg, hdg, hkg⟩ := hk
      by_cases hcase : "docker_image" ∈ g0 ∧ k ∈ g0
      · have hinner : foldO truncMember cfg g0 = some cfg1 := by
          unfold truncGroup at hstep
          rwa [if_pos hcase.1] at hstep
        obtain ⟨y, z, hy, hz, hl1, hid⟩ :=
          (truncMemberFold_lookup g0 cfg cfg1 hinner k).2 hkd hcase.2
        by_cases hrest2 : ∃ g, g ∈ rest ∧ "docker_image" ∈ g ∧ k ∈ g
        · obtain ⟨y2, z2, hy2, hz2, hfin, _⟩ := (ih cfg1 cfg' hrest k).2 hkd hrest2
          rw [hl1] at hy2
          injection hy2 with hy2
          subst hy2
          rw [hid] at hz2
          injection hz2 with hz2
          subst hz2
          exact ⟨y, z, hy, hz, hfin, hid⟩
        · have hall : ∀ g ∈ rest, "docker_image" ∈ g → k ∉ g := by
            intro g' hg' hd' hk'
            exact hrest2 ⟨g', hg', hd', hk'⟩
          have := (ih cfg1 cfg' hrest k).1 (Or.inr hall)
          rw [this, hl1]
          exact ⟨y, z, hy, hz, rfl, hid⟩
      · have hg' : g ∈ rest := by
          rcases List.mem_cons.mp hg with he | he
          · exact absurd ⟨he ▸ hdg, he ▸ hkg⟩ hcase
          · exact he
        have h1 : lookupKey k cfg1 = lookupKey k cfg := by
          unfold truncGroup at hstep
          by_cases hd0 : "docker_image" ∈ g0
          · rw [if_pos hd0] at hstep
            have hk0 : k ∉ g0 := fun hk0 => hcase ⟨hd0, hk0⟩
            exact (truncMemberFold_lookup g0 cfg cfg1 hstep k).1 (Or.inr hk0)
          · rw [if_neg hd0] at hstep
            injection hstep with hstep
            rw [← hstep]
        obtain ⟨y, z, hy, hz, hfin, hid⟩ :=
          (ih cfg1 cfg' hrest k).2 hkd ⟨g, hg', hdg, hkg⟩
        rw [h1] at hy
        exact ⟨y, z, hy, hz, hfin, hid⟩

set_option maxHeartbeats 1000000 in
/-- C9: on a linux build platform, finalize_config truncates docker_image to
a singleton of its first value (inserting the fallback image as a singleton
when docker_image is absent), truncates every other member of every zip
group containing docker_image to a singleton of its first value, and leaves
every other key unchanged. -/
theorem finalize_config_linux_docker_truncation
    (config : Cfg) (platform arch : String) (fc : ForgeConfig) (bp : String) (out : Cfg)
    (hbp : lookupKey (platform ++ "_" ++ arch) fc.build_platform = some bp)
    (hlin : strStartsWith bp "linux" = true)
    (hout : finalize_config config platform arch fc = some out) :
    (∀ vs, lookupKey "docker_image" config = some (CVal.vals vs) →
      ∃ v, vs.head? = some v ∧ lookupKey "docker_image" out = some (CVal.vals [v]))
    ∧ (lookupKey "docker_image" config = none →
        lookupKey "docker_image" out = some (CVal.vals [fc.docker_fallback_image]))
    ∧ (∀ gs g k vs, lookupKey "zip_keys" config = some (CVal.groups gs) →
        g ∈ gs → "docker_image" ∈ g → k ∈ g → k ≠ "docker_image" →
        lookupKey k config = some (CVal.vals vs) →
        ∃ v, vs.head? = some v ∧ lookupKey k out = some (CVal.vals [v]))
    ∧ (∀ k, k ≠ "docker_image" →
        (∀ gs, lookupKey "zip_keys" config = some (CVal.groups gs) →
          ∀ g ∈ gs, "docker_image" ∈ g → k ∉ g) →
        lookupKey k out = lookupKey k config) := by
  unfold finalize_config at hout
  rw [hbp] at hout
  simp only [Option.some_bind] at hout
  rw [if_pos hlin] at hout
  rw [Option.bind_eq_some] at hout
  obtain ⟨config1, hdstep, hzstep⟩ := hout
  -- config1 is always a docker_image assignment on top of config
  have hform : ∃ z : CVal, config1 = setKey config "docker_image" z := by
    cases hdok : lookupKey "docker_image" config with
    | none =>
      rw [hdok] at hdstep
      injection hdstep with hdstep
      exact ⟨CVal.vals [fc.docker_fallback_image], hdstep.symm⟩
    | some y =>
      rw [hdok] at hdstep
      rw [Option.map_eq_some'] at hdstep
      obtain ⟨z, _, hset⟩ := hdstep
      exact ⟨z, hset.symm⟩
  obtain ⟨dz, hdz⟩ := hform
  have hne_zip : ("zip_keys" : String) ≠ "docker_image" := by decide
  have hzip1 : lookupKey "zip_keys" config1 = lookupKey "zip_keys" config := by
    rw [hdz]
    exact lookupKey_setKey_ne _ _ hne_zip
  -- the final step: either no zip_keys, or the group folds
  have hfinal : (lookupKey "zip_keys" config = none ∧ out = config1) ∨
      (∃ gs, lookupKey "zip_keys" config = some (CVal.groups gs) ∧
        foldO truncGroup config1 gs = some out) := by
    cases hz : lookupKey "zip_keys" config with
    | none =>
      rw [hzip1, hz] at hzstep
      injection hzstep with hzstep
      exact Or.inl ⟨rfl, hzstep.symm⟩
    | some zv =>
      rw [hzip1, hz] at hzstep
      cases zv with
      | groups gs => exact Or.inr ⟨gs, rfl, hzstep⟩
      | vals vs => exact absurd hzstep (by simp)
      | pins ps => exact absurd hzstep (by simp)
  -- docker_image is never modified by the group folds
  have hdocker_out : lookupKey "docker_image" out = lookupKey "docker_image" config1 := by
    rcases hfinal with ⟨_, ho⟩ | ⟨gs, _, hfold⟩
    · rw [ho]
    · exact (truncGroupFold_lookup gs config1 out hfold "docker_image").1 (Or.inl rfl)
  refine ⟨?_, ?_, ?_, ?_⟩
  · intro vs hvs
    rw [hvs] at hdstep
    rw [Option.map_eq_some'] at hdstep
    obtain ⟨z, hz, hset⟩ := hdstep
    cases hh : vs.head? with
    | none => simp [firstSingleton, hh] at hz
    | some v =>
      simp only [firstSingleton, hh, Option.map_some'] at hz
      refine ⟨v, rfl, ?_⟩
      rw [hdocker_out, ← hset, lookupKey_setKey_self]
      rw [← hz]
  · intro hnone
    rw [hnone] at hdstep
    injection hdstep with hdstep
    rw [hdocker_out, ← hdstep, lookupKey_setKey_self]
  · intro gs g k vs hzk hg hdg hkg hkd hkv
    rcases hfinal with ⟨hznone, _⟩ | ⟨gs', hzk', hfold⟩
    · rw [hzk] at hznone; exact absurd hznone (by simp)
    · rw [hzk] at hzk'
      injection hzk' with hzk'
      injection hzk' with hzk'
      subst hzk'
      have hk1 : lookupKey k config1 = some (CVal.vals vs) := by
        rw [hdz, lookupKey_setKey_ne _ _ hkd, hkv]
      obtain ⟨y, z, hy, hz, hfin, _⟩ :=
        (truncGroupFold_lookup gs config1 out hfold k).2 hkd ⟨g, hg, hdg, hkg⟩
      rw [hk1] at hy
      injection hy with hy
      subst hy
      cases hh : vs.head? with
      | none => simp [firstSingleton, hh] at hz
      | some v =>
        simp only [firstSingleton, hh, Option.map_some'] at hz
        exact ⟨v, rfl, by rw [hfin, ← hz]⟩
  · intro k hkd hall
    have hk1 : lookupKey k config1 = lookupKey k config := by
      rw [hdz]
      exact lookupKey_setKey_ne _ _ hkd
    rcases hfinal with ⟨_, ho⟩ | ⟨gs, hzk, hfold⟩
    · rw [ho, hk1]
    · rw [(truncGroupFold_lookup gs config1 out hfold k).1 (Or.inr (hall gs hzk)), hk1]

/-- Witness for C9 at a concrete linux config: docker_image is truncated to
its first image, its zip co-member cdt_name is truncated to its first value,
and the unrelated key numpy is unchanged. -/
theorem finalize_config_linux_docker_truncation_witness :
    lookupKey "docker_image"
      [("docker_image", CVal.vals ["d1"]), ("cdt_name", CVal.vals ["c1"]),
       ("numpy", CVal.vals ["n1", "n2"]),
       ("zip_keys", CVal.groups [["docker_image", "cdt_name"]])] = some (CVal.vals ["d1"])
    ∧ lookupKey "cdt_name"
      [("docker_image", CVal.vals ["d1"]), ("cdt_name", CVal.vals ["c1"]),
       ("numpy", CVal.vals ["n1", "n2"]),
       ("zip_keys", CVal.groups [["docker_image", "cdt_name"]])] = some (CVal.vals ["c1"])
    ∧ lookupKey "numpy"
      [("docker_image", CVal.vals ["d1"]), ("cdt_name", CVal.vals ["c1"]),
       ("numpy", CVal.vals ["n1", "n2"]),
       ("zip_keys", CVal.groups [["docker_image", "cdt_name"]])] =
      lookupKey "numpy"
      [("docker_image", CVal.vals ["d1", "d2"]), ("cdt_name", CVal.vals ["c1", "c2"]),
       ("numpy", CVal.vals ["n1", "n2"]),
       ("zip_keys", CVal.groups [["docker_image", "cdt_name"]])] := by
  have h := finalize_config_linux_docker_truncation
    [("docker_image", CVal.vals ["d1", "d2"]), ("cdt_name", CVal.vals ["c1", "c2"]),
     ("numpy", CVal.vals ["n1", "n2"]),
     ("zip_keys", CVal.groups [["docker_image", "cdt_name"]])]
    "linux" "64"
    { build_platform := [("linux_64", "linux-64")], docker_fallback_image := "fb" }
    "linux-64"
    [("docker_image", CVal.vals ["d1"]), ("cdt_name", CVal.vals ["c1"]),
     ("numpy", CVal.vals ["n1", "n2"]),
     ("zip_keys", CVal.groups [["docker_image", "cdt_name"]])]
    (by rfl) (by decide) (by decide)
  refine ⟨?_, ?_, ?_⟩
  · obtain ⟨v, hv, hout⟩ := h.1 ["d1", "d2"] (by rfl)
    have hv' : "d1" = v := by injection hv
    rw [← hv'] at hout
    exact hout
  · obtain ⟨v, hv, hout⟩ := h.2.2.1 [["docker_image", "cdt_name"]]
      ["docker_image", "cdt_name"] "cdt_name" ["c1", "c2"]
      (by rfl) (by simp) (by simp) (by simp) (by decide) (by rfl)
    have hv' : "c1" = v := by injection hv
    rw [← hv'] at hout
    exact hout
  · exact h.2.2.2 "numpy" (by decide) (by
      intro gs hgs
      have h1 : CVal.groups [["docker_image", "cdt_name"]] = CVal.groups gs := by
        injection hgs
      have h2 : [["docker_image", "cdt_name"]] = gs := by injection h1
      rw [← h2]
      decide)

/-! ## Claims C1 and C7: top-level partitioning -/

/-- C1: the claim of one dimension entry per distinct top-level value (and
no combination emitted twice) is refuted: the standalone top-level variable
python has the distinct values a and nothing else, yet break_up emits two
identical Configs, one per occurrence of a. -/
theorem standalone_top_level_duplicate_value_cex :
    break_up_top_level_values ["python"]
      [("python", CVal.vals ["a", "a"]), ("numpy", CVal.vals ["x", "y"])] =
      some [[("python", CVal.vals ["a"]), ("numpy", CVal.vals ["x", "y"])],
            [("python", CVal.vals ["a"]), ("numpy", CVal.vals ["x", "y"])]] := by
  decide

/-- C7: the claim that a top-level name absent from the mapping raises no
error is refuted: with python not a key of the mapping,
break_up_top_level_values fails with a KeyError instead of returning the
pure background Config. -/
theorem break_up_missing_top_level_key_errors_cex :
    break_up_top_level_values ["python"] [("numpy", CVal.vals ["x"])] = none := by
  decide

/-- C7 (amended): with an empty set of top-level variable names,
break_up_top_level_values returns exactly one Config: the sorted pure
background mapping.  (A top-level name absent from the mapping instead
raises a KeyError, per the counterexample.) -/
theorem break_up_no_top_level_keys_single_config (m : Cfg)
    (zg1 : List (List String)) (bg : Cfg)
    (hnd : (m.map Prod.fst).Nodup)
    (hz : zipKeysSecondRead m (readZipGroups m) = some zg1)
    (hs : sort_config m zg1 = some bg) :
    break_up_top_level_values [] m = some [bg] := by
  have hval : break_up_top_level_values [] m =
      some ((cartProd (([] : List (List Cfg)) ++ ([] : List (List Cfg)) ++
        (if bg.isEmpty then [] else [[bg]]))).map
          (fun perm => perm.foldl dictUpdate [])) := by
    unfold break_up_top_level_values
    have hfold0 : foldO (break_up_step [] (readZipGroups m))
        { accounted := [], dims := [], zipped := [], m := m } [] =
        some { accounted := [], dims := [], zipped := [], m := m } := rfl
    rw [hfold0]
    simp only [Option.some_bind]
    rw [hz]
    simp only [Option.some_bind]
    rw [hs]
    simp only [Option.some_bind]
    rfl
  rw [hval]
  by_cases hbe : bg.isEmpty = true
  · have hbg : bg = [] := List.isEmpty_iff.mp hbe
    rw [if_pos hbe]
    subst hbg
    rfl
  · rw [if_neg hbe]
    have h1 : cartProd (([] : List (List Cfg)) ++ ([] : List (List Cfg)) ++ [[bg]]) = [[bg]] := by
      show cartProd [[bg]] = [[bg]]
      rw [cartProd_one]
      rfl
    rw [h1]
    have hnd' : (bg.map Prod.fst).Nodup := by
      rw [sort_config_fst hs]
      exact hnd
    show some [dictUpdate [] bg] = some [bg]
    rw [dictUpdate_nil_of_nodup hnd']

/-- Witness for the amended C7 at a concrete mapping with no top-level
variables: one Config, the background with its value lists sorted. -/
theorem break_up_no_top_level_keys_single_config_witness :
    break_up_top_level_values [] [("b", CVal.vals ["2", "1"]), ("a", CVal.vals ["9"])] =
      some [[("b", CVal.vals ["1", "2"]), ("a", CVal.vals ["9"])]] :=
  break_up_no_top_level_keys_single_config
    [("b", CVal.vals ["2", "1"]), ("a", CVal.vals ["9"])] []
    [("b", CVal.vals ["1", "2"]), ("a", CVal.vals ["9"])]
    (by decide) (by rfl) (by rfl)

/-- C1 (amended): a standalone top-level variable yields one dimension entry
per occurrence of a value in its input list, not one per distinct value:
for a single standalone top-level variable, the sequence of its values
across the returned Configs equals the input value list occurrence for
occurrence — every distinct input value appears in some Config, and a value
occurring in several input rows is emitted once per occurrence. -/
theorem standalone_top_level_one_entry_per_occurrence
    (key : String) (values : List String) (m : Cfg)
    (zg1 : List (List String)) (bg : Cfg)
    (hk : lookupKey key m = some (CVal.vals values))
    (hng : ∀ g ∈ readZipGroups m, key ∉ g)
    (hz : zipKeysSecondRead (eraseKey m key) (readZipGroups m) = some zg1)
    (hs : sort_config (eraseKey m key) zg1 = some bg) :
    Option.map (fun cs => cs.map (fun c => lookupKey key c))
      (break_up_top_level_values [key] m) =
      some (values.map (fun v => some (CVal.vals [v]))) := by
  have hfind : (readZipGroups m).find? (fun g => decide (key ∈ g)) = none := by
    rw [List.find?_eq_none]
    intro g hg
    simpa using hng g hg
  have hstep : break_up_step [key] (readZipGroups m)
      { accounted := [], dims := [], zipped := [], m := m } key =
      some { accounted := [], dims := [values.map (fun v => [(key, CVal.vals [v])])],
             zipped := [], m := eraseKey m key } := by
    unfold break_up_step
    rw [if_neg (List.not_mem_nil key)]
    rw [hfind]
    show Option.map _ (asVals (lookupKey key m)) = _
    rw [hk]
    rfl
  have hfold : foldO (break_up_step [key] (readZipGroups m))
      { accounted := [], dims := [], zipped := [], m := m } [key] =
      some { accounted := [], dims := [values.map (fun v => [(key, CVal.vals [v])])],
             zipped := [], m := eraseKey m key } := by
    show Option.bind (break_up_step [key] (readZipGroups m)
      { accounted := [], dims := [], zipped := [], m := m } key) _ = _
    rw [hstep]
    rfl
  have hval : break_up_top_level_values [key] m =
      some ((cartProd ([values.map (fun v => [(key, CVal.vals [v])])] ++
          ([] : List (List Cfg)) ++ (if bg.isEmpty then [] else [[bg]]))).map
        (fun perm => perm.foldl dictUpdate [])) := by
    unfold break_up_top_level_values
    rw [hfold]
    simp only [Option.some_bind]
    rw [hz]
    simp only [Option.some_bind]
    rw [hs]
    simp only [Option.some_bind]
    rfl
  rw [hval]
  simp only [Option.map_some']
  have hpoint : ∀ x : CVal, lookupKey key (dictUpdate [] [(key, x)]) = some x := by
    intro x
    show lookupKey key (setKey [] key x) = some x
    exact lookupKey_setKey_self [] key x
  by_cases hbe : bg.isEmpty = true
  · rw [if_pos hbe]
    have h1 : cartProd ([values.map (fun v => [(key, CVal.vals [v])])] ++
        ([] : List (List Cfg)) ++ []) = (values.map (fun v => [(key, CVal.vals [v])])).map
          (fun x => [x]) := by
      show cartProd [values.map (fun v => [(key, CVal.vals [v])])] = _
      exact cartProd_one _
    rw [h1, List.map_map, List.map_map, List.map_map]
    refine congrArg some ?_
    apply List.map_eq_map_iff.mpr
    intro v _
    show lookupKey key (List.foldl dictUpdate [] [[(key, CVal.vals [v])]]) =
      some (CVal.vals [v])
    exact hpoint (CVal.vals [v])
  · rw [if_neg hbe]
    have hbg : lookupKey key bg = none := by
      rw [lookupKey_eq_none_iff, sort_config_fst hs]
      exact lookupKey_eq_none_iff.mp (lookupKey_eraseKey_self m key)
    have h1 : cartProd ([values.map (fun v => [(key, CVal.vals [v])])] ++
        ([] : List (List Cfg)) ++ [[bg]]) = (values.map (fun v => [(key, CVal.vals [v])])).map
          (fun x => [x, bg]) := by
      show cartProd [values.map (fun v => [(key, CVal.vals [v])]), [bg]] = _
      exact cartProd_two_one _ bg
    rw [h1, List.map_map, List.map_map, List.map_map]
    refine congrArg some ?_
    apply List.map_eq_map_iff.mpr
    intro v _
    show lookupKey key (List.foldl dictUpdate [] [[(key, CVal.vals [v])], bg]) =
      some (CVal.vals [v])
    show lookupKey key (dictUpdate (dictUpdate [] [(key, CVal.vals [v])]) bg) =
      some (CVal.vals [v])
    rw [lookupKey_dictUpdate_none hbg]
    exact hpoint (CVal.vals [v])

/-- Witness for the amended C1: python occurs with values a, a across the
rows, and the emitted Configs carry python = a twice, one per occurrence. -/
theorem standalone_top_level_one_entry_per_occurrence_witness :
    Option.map (fun cs => cs.map (fun c => lookupKey "python" c))
      (break_up_top_level_values ["python"]
        [("python", CVal.vals ["a", "a"]), ("numpy", CVal.vals ["x", "y"])]) =
      some [some (CVal.vals ["a"]), some (CVal.vals ["a"])] :=
  standalone_top_level_one_entry_per_occurrence "python" ["a", "a"]
    [("python", CVal.vals ["a", "a"]), ("numpy", CVal.vals ["x", "y"])]
    [] [("numpy", CVal.vals ["x", "y"])]
    (by rfl) (by simp [readZipGroups, lookupKey]) (by rfl) (by rfl)

end CondaSmithy
